import Mathlib
/-!
# Verification of the `test-core` orchestration module

Shallow embedding of `src/orchestration/index.ts` (the `TestOrchestrator`
class, its `Semaphore`, `createShards`, `filterTests`, `resolveDependencies`
and `orchestrate`), together with theorems settling the specification claims
about dependency resolution, sharding, concurrency bounds and error handling.

Strings, lists and natural numbers model JavaScript strings, arrays and the
(small, non-negative) integers used by the code.  JavaScript `Map` and `Set`
objects are modelled as association lists / lists with membership tests.
Wall-clock quantities (`Date.now()` durations, ISO timestamps) are outside the
embedding and are modelled as the constant `0` / omitted; no claim concerns
them.
-/

/-! ## Data model and operations (shallow embedding of the source) -/

/-- `TestSuite` (source lines 6–28).  Only the fields the orchestration logic
reads are modelled: `name`, `files`, `dependencies`, `tags`.  Optional fields
keep their optionality (`Option`), because the code branches on presence
(`suite?.dependencies`, `suite.tags && ...`). -/
structure TestSuite where
  name : String
  files : List String
  dependencies : Option (List String) := none
  tags : Option (List String) := none
deriving Repr, DecidableEq

/-- The orchestrator's suite registry `this.suites : Map<string, TestSuite>`,
as an association list in insertion order. -/
abbrev Registry := List (String × TestSuite)

/-- JavaScript `Map.prototype.get`. -/
def mapGet (m : Registry) (k : String) : Option TestSuite :=
  match m with
  | [] => none
  | (k', v) :: rest => if k' = k then some v else mapGet rest k

/-- JavaScript `Map.prototype.set`: overwrites in place if the key is present
(keeping its insertion position), otherwise appends. -/
def mapSet (m : Registry) (k : String) (v : TestSuite) : Registry :=
  match m with
  | [] => [(k, v)]
  | (k', v') :: rest => if k' = k then (k, v) :: rest else (k', v') :: mapSet rest k v

/-- `registerSuite` (source lines 136–138): `this.suites.set(suite.name, suite)`.
Note the source performs no duplicate check of any kind. -/
def registerSuite (m : Registry) (suite : TestSuite) : Registry :=
  mapSet m suite.name suite

/-- The dependency list the DFS iterates over for `name` (source lines 172–177):
the registered suite's `dependencies` array when the suite exists and the field
is defined, and nothing otherwise. -/
def depsOf (m : Registry) (name : String) : List String :=
  match mapGet m name with
  | some s => s.dependencies.getD []
  | none => []

/-- The dependency edge relation of the registered graph: `depEdge g a b` holds
when `b` is listed among `a`'s registered dependencies. -/
def depEdge (g : Registry) (a b : String) : Prop :=
  b ∈ depsOf g a

/-- The mutable state of `resolveDependencies` (source lines 158–160):
`visited` and `visiting` are JavaScript `Set`s (modelled as duplicate-free
lists with membership), `order` is the output array. -/
structure VisitState where
  visited : List String
  visiting : List String
  order : List String
deriving Repr, DecidableEq

/-- Outcome of the DFS: normal completion, the thrown
`Circular dependency detected` error carrying the offending name, or fuel
exhaustion (a modelling artifact, proved unreachable below). -/
inductive VisitRes where
  | ok (s : VisitState)
  | cycle (name : String)
  | fuelOut
deriving Repr, DecidableEq

/-- The recursive `visit` of `resolveDependencies` (source lines 162–182),
run over a work list: `visitMany g fuel names s` executes the source's
`visit(name)` for each `name` in `names` in order (this is both the
`for (const dep of suite.dependencies)` loop and the top-level
`for (const name of suiteNames)` loop).  `fuel` bounds the depth of nested
`visit` expansions, consumed one unit per expansion; it is a modelling
artifact needed for termination and is proved sufficient below. -/
def visitMany (g : Registry) : Nat → List String → VisitState → VisitRes
  | _, [], s => .ok s
  | 0, _ :: _, _ => .fuelOut
  | fuel + 1, name :: rest, s =>
    if name ∈ s.visited then
      visitMany g (fuel + 1) rest s
    else if name ∈ s.visiting then
      .cycle name
    else
      match visitMany g fuel (depsOf g name) { s with visiting := name :: s.visiting } with
      | .ok s2 =>
          visitMany g (fuel + 1) rest
            { visited := name :: s2.visited
              visiting := s2.visiting.erase name
              order := s2.order ++ [name] }
      | r => r
termination_by fuel names _ => (fuel, names.length)

/-- Every name the DFS can ever touch: the requested names together with all
registry keys and all names in registered dependency arrays.  Used only to
compute a sufficient fuel bound. -/
def universeList (g : Registry) (names : List String) : List String :=
  names ++ g.flatMap (fun p => p.1 :: p.2.dependencies.getD [])

/-- `resolveDependencies` (source lines 157–189).  Success returns the `order`
array; the thrown `Circular dependency detected: <name>` error is the
`.error` case.  The fuel is large enough that exhaustion never occurs
(`visitMany_ne_fuelOut` below). -/
def resolveDependencies (g : Registry) (suiteNames : List String) : Except String (List String) :=
  match visitMany g ((universeList g suiteNames).length + 1) suiteNames ⟨[], [], []⟩ with
  | .ok s => .ok s.order
  | .cycle name => .error ("Circular dependency detected: " ++ name)
  | .fuelOut => .error "fuel exhausted"

/-- `TestShard` (source lines 30–39). -/
structure TestShard where
  index : Nat
  total : Nat
  files : List String
  env : List (String × String) := []
deriving Repr, DecidableEq

/-- `shards[shardIndex]?.files.push(file)` (source line 212): append `file` to
the files of the shard at position `i`, a no-op when `i` is out of range. -/
def pushFile (shards : List TestShard) (i : Nat) (file : String) : List TestShard :=
  match shards, i with
  | [], _ => []
  | sh :: rest, 0 => { sh with files := sh.files ++ [file] } :: rest
  | sh :: rest, n + 1 => sh :: pushFile rest n file

/-- The `files.forEach((file, index) => ...)` distribution loop of
`createShards` (source lines 210–213); `k` is the current `index`. -/
def distributeFiles (shards : List TestShard) (shardCount : Nat) (k : Nat) :
    List String → List TestShard
  | [] => shards
  | f :: rest => distributeFiles (pushFile shards (k % shardCount) f) shardCount (k + 1) rest

/-- `createShards` (source lines 194–216): `shardCount` empty shards indexed
`0..shardCount-1`, then each file at position `i` pushed onto shard
`i % shardCount`. -/
def createShards (files : List String) (shardCount : Nat) : List TestShard :=
  let shards := (List.range shardCount).map fun index =>
    { index := index
      total := shardCount
      files := []
      env := [("TEST_SHARD_INDEX", toString index), ("TEST_TOTAL_SHARDS", toString shardCount)] }
  distributeFiles shards shardCount 0 files

/-- The files of `files` at positions congruent to `j` modulo `n`, in order,
starting the position count at `k`.  (`selectFrom n 0 j files` is the file
list the mod-`n` round-robin assigns to shard `j`.) -/
def selectFrom (n k j : Nat) : List String → List String
  | [] => []
  | f :: rest => if k % n = j then f :: selectFrom n (k + 1) j rest else selectFrom n (k + 1) j rest

/-- Well-formedness invariant of the DFS state: the output list has no
duplicates, agrees with `visited` as a set, `visited` is closed under
registered dependency edges, and the output is topologically sorted
(every listed name's registered dependencies occur strictly earlier). -/
structure GoodState (g : Registry) (s : VisitState) : Prop where
  nodup : s.order.Nodup
  visited_iff : ∀ x, x ∈ s.visited ↔ x ∈ s.order
  closed : ∀ n ∈ s.visited, ∀ d ∈ depsOf g n, d ∈ s.visited
  topo : ∀ n ∈ s.order, ∀ d ∈ depsOf g n, s.order.indexOf d < s.order.indexOf n

/-- Concrete suite: `A` with one file, depending on `B`. -/
def suiteA : TestSuite := { name := "A", files := ["a1"], dependencies := some ["B"] }

/-- Concrete suite: `B` with one file and no dependencies. -/
def suiteB : TestSuite := { name := "B", files := ["b1"] }

/-- Concrete registry containing `A → B`. -/
def regAB : Registry := [("A", suiteA), ("B", suiteB)]

/-- Concrete suite depending on itself. -/
def suiteLoop : TestSuite := { name := "C", files := [], dependencies := some ["C"] }

/-- Concrete registry containing the self-cycle `C → C`. -/
def regLoop : Registry := [("C", suiteLoop)]

/-- Concrete suite named `X` (first registration). -/
def suiteX1 : TestSuite := { name := "X", files := ["x1"] }

/-- Concrete suite named `X` (second registration, different files). -/
def suiteX2 : TestSuite := { name := "X", files := ["x2"] }

/-- State of one `Semaphore` instance together with the tasks it guards:
`permits` is the private counter, `waiting` the length of the FIFO waiter
queue (`this.waiting.length`; the identities of the queued resolvers do not
affect the counting invariant), and `running` the number of tasks that have
acquired a permit and not yet released it — i.e. the simultaneously-running
runner invocations of `orchestrate`. -/
structure SemState where
  permits : Nat
  waiting : Nat
  running : Nat
deriving Repr, DecidableEq

/-- Atomic transitions of the semaphore, read off `acquire` (source lines
481–493) and `release` (source lines 495–503) as executed by the
single-threaded event loop:
* `acquireFast`: `acquire` with `permits > 0` decrements the counter and the
  caller starts running;
* `acquireWait`: `acquire` with `permits = 0` pushes the caller onto
  `waiting`;
* `releaseNoWake`: `release` with an empty queue increments the counter and
  the caller stops running;
* `releaseWake`: `release` with a non-empty queue increments the counter,
  then the shifted waiter's callback decrements it again and the waiter
  starts running (net: the permit is handed over). -/
inductive SemStep : SemState → SemState → Prop where
  | acquireFast (permits waiting running : Nat) :
      SemStep ⟨permits + 1, waiting, running⟩ ⟨permits, waiting, running + 1⟩
  | acquireWait (waiting running : Nat) :
      SemStep ⟨0, waiting, running⟩ ⟨0, waiting + 1, running⟩
  | releaseNoWake (permits running : Nat) :
      SemStep ⟨permits, 0, running + 1⟩ ⟨permits + 1, 0, running⟩
  | releaseWake (permits waiting running : Nat) :
      SemStep ⟨permits, waiting + 1, running + 1⟩ ⟨permits, waiting, running + 1⟩

/-- States reachable from `new Semaphore(k)` (source line 341 uses
`new Semaphore(concurrency)`): `permits = k`, nobody waiting or running. -/
def SemReachable (k : Nat) : SemState → Prop :=
  Relation.ReflTransGen SemStep ⟨k, 0, 0⟩

/-- Remainder of `s` after the first occurrence of `p` as a contiguous
substring, or `none` if `p` never occurs. -/
def dropSub (p : List Char) : List Char → Option (List Char)
  | [] => if p.isPrefixOf ([] : List Char) then some [] else none
  | c :: rest =>
    if p.isPrefixOf (c :: rest) then some ((c :: rest).drop p.length)
    else dropSub p rest

/-- Match pattern pieces in order, each as a contiguous substring occurring
after the end of the previous piece's match. -/
def piecesMatch : List (List Char) → List Char → Bool
  | [], _ => true
  | p :: ps, s =>
    match dropSub p s with
    | some rest => piecesMatch ps rest
    | none => false

/-- `matchesPattern` (source lines 609–616).  A pattern containing `*` is
turned by the source into the unanchored regex obtained by replacing each `*`
with `.*`; for patterns whose remaining characters carry no further regex
meaning this is exactly: the pieces between the stars occur in order as
substrings.  A pattern without `*` uses `file.includes(pattern)` (substring
containment). -/
def matchesPattern (file pattern : String) : Bool :=
  if pattern.toList.contains '*' then
    piecesMatch ((pattern.splitOn "*").map String.toList) file.toList
  else
    (dropSub pattern.toList file.toList).isSome

/-- `OrchestrationOptions` (source lines 41–72), restricted to the fields the
orchestration logic reads.  `includePatterns`/`excludePatterns` model the
source's `include`/`exclude` fields (renamed: `include` is a Lean keyword).
`Option` mirrors JavaScript optionality where the code branches on presence;
the defaults are those destructured at source lines 284–291. -/
structure OrchestrationOptions where
  concurrency : Nat := 4
  sharding : Bool := false
  shardCount : Nat := 4
  shardIndex : Option Nat := none
  includePatterns : Option (List String) := none
  excludePatterns : Option (List String) := none
  tags : Option (List String) := none
  excludeTags : Option (List String) := none
  continueOnError : Bool := true
  enableCache : Bool := false

/-- `filterTests` (source lines 221–274): drop suites by tag criteria, narrow
each surviving suite's file list by include/exclude patterns, then drop
suites left with no files.  Each tag check applies only when both the
criterion and `suite.tags` are present (`tags && suite.tags` — a JavaScript
array is truthy even when empty). -/
def filterTests (suites : List TestSuite) (opts : OrchestrationOptions) : List TestSuite :=
  ((suites.filter fun suite =>
      (match opts.tags, suite.tags with
       | some ts, some sts => ts.any fun t => sts.contains t
       | _, _ => true)
      &&
      (match opts.excludeTags, suite.tags with
       | some ets, some sts => !(ets.any fun t => sts.contains t)
       | _, _ => true)).map fun suite =>
    { suite with files := suite.files.filter fun file =>
        (match opts.includePatterns with
         | some inc => inc.any fun pattern => matchesPattern file pattern
         | none => true)
        &&
        (match opts.excludePatterns with
         | some exc => !(exc.any fun pattern => matchesPattern file pattern)
         | none => true) }).filter fun suite => suite.files.length > 0

/-- `TestResult` (source lines 74–91); `duration` is wall-clock and modelled
as 0, `stackTrace`/`metadata` are informational and omitted. -/
structure TestResult where
  suite : String
  file : String
  name : String
  passed : Bool
  duration : Nat := 0
  error : Option String := none
deriving Repr, DecidableEq

/-- The `summary` field of `OrchestrationResult` (source lines 101–107). -/
structure Summary where
  total : Nat := 0
  passed : Nat := 0
  failed : Nat := 0
  skipped : Nat := 0
  duration : Nat := 0
deriving Repr, DecidableEq

/-- The `sharding` field of `OrchestrationResult` (source lines 109–113). -/
structure ShardingInfo where
  shardIndex : Nat
  totalShards : Nat
  shardFiles : List String
deriving Repr, DecidableEq

/-- The `cacheStats` field of `OrchestrationResult` (source lines 117–121). -/
structure CacheStats where
  hits : Nat
  misses : Nat
  savedTime : Nat
deriving Repr, DecidableEq

/-- `OrchestrationResult` (source lines 93–124); each `errors` entry keeps
only the message (the paired ISO timestamp is wall-clock, outside the
embedding). -/
structure OrchestrationResult where
  success : Bool
  totalDuration : Nat
  results : List TestResult
  summary : Summary
  sharding : Option ShardingInfo := none
  errors : List String
  cacheStats : Option CacheStats := none
deriving Repr, DecidableEq

/-- The injected runner collaborator (spec §6): one invocation of
`runTestSuite(suite, file, options)` (source lines 420–449).  The source stubs
the runner with `sleep` plus `Math.random()` — wall-clock time and randomness
are outside the embedding, and the spec treats the runner as an injected
black box that may fail — so the orchestration theorems are parameterised
over the runner's outcome per task: `.ok results` models a fulfilled task
promise, `.error message` a rejected one. -/
abbrev Runner := TestSuite → String → Except String (List TestResult)

/-- The fresh `result` object of `orchestrate` (source lines 293–306). -/
def initialResult : OrchestrationResult :=
  { success := false, totalDuration := 0, results := [], summary := {},
    sharding := none, errors := [], cacheStats := none }

/-- Suite lookup over the resolved order, dropping unregistered names
(source lines 313–315). -/
def lookupSuites (g : Registry) (ordered : List String) : List TestSuite :=
  ordered.filterMap (mapGet g)

/-- The flattened `allFiles` list before sharding (source lines 320–323). -/
def collectFiles (suites : List TestSuite) : List String :=
  (suites.map TestSuite.files).flatten

/-- The sharding step (source lines 326–338): the working file set and the
metadata recorded on the result.  `shards[shardIndex]` is `undefined` when
the index is out of range, and the `if (targetShard)` guard then skips both
the restriction and the metadata. -/
def applySharding (opts : OrchestrationOptions) (allFiles : List String) :
    List String × Option ShardingInfo :=
  if opts.sharding then
    let shards := createShards allFiles opts.shardCount
    let targetShard := match opts.shardIndex with
      | some i => shards[i]?
      | none => shards[0]?
    match targetShard with
    | some ts => (ts.files, some ⟨ts.index, ts.total, ts.files⟩)
    | none => (allFiles, none)
  else (allFiles, none)

/-- The dispatched `(suite, file)` tasks (source lines 344–361): one per file
of each filtered suite whose file survived sharding, in enumeration order.
All tasks are created up front, before any outcome is observed. -/
def taskList (filteredSuites : List TestSuite) (allFiles : List String) :
    List (TestSuite × String) :=
  (filteredSuites.map fun suite =>
    (suite.files.filter fun file => allFiles.contains file).map fun file => (suite, file)).flatten

/-- The settled task outcomes (`Promise.allSettled`, source line 364) under
the given runner. -/
def taskOutcomes (run : Runner) (tasks : List (TestSuite × String)) :
    List (Except String (List TestResult)) :=
  tasks.map fun t => run t.1 t.2

/-- The fulfilled results, flattened in settlement order (source lines
365–367). -/
def successfulResults (outcomes : List (Except String (List TestResult))) : List TestResult :=
  (outcomes.map fun o => match o with | .ok rs => rs | .error _ => []).flatten

/-- The rejection messages, in order (source lines 369–371). -/
def failedMessages (outcomes : List (Except String (List TestResult))) : List String :=
  outcomes.filterMap fun o => match o with | .ok _ => none | .error e => some e

/-- The `try` block of `orchestrate` (source lines 308–412), threading the
partially mutated `result` object; a thrown error carries the result state as
mutated up to the throw site. -/
def orchestrateBody (g : Registry) (run : Runner) (suiteNames : List String)
    (opts : OrchestrationOptions) (result0 : OrchestrationResult) :
    Except (OrchestrationResult × String) OrchestrationResult :=
  match resolveDependencies g suiteNames with
  | .error e => .error (result0, e)
  | .ok orderedSuites =>
    let filteredSuites := filterTests (lookupSuites g orderedSuites) opts
    let shardingStep := applySharding opts (collectFiles filteredSuites)
    let result1 := match shardingStep.2 with
      | some si => { result0 with sharding := some si }
      | none => result0
    let outcomes := taskOutcomes run (taskList filteredSuites shardingStep.1)
    let failed := failedMessages outcomes
    let result2 := { result1 with results := successfulResults outcomes }
    let result3 := if failed.isEmpty then result2
      else { result2 with errors := result2.errors ++ failed }
    if !failed.isEmpty && !opts.continueOnError then
      .error (result3, "Test orchestration failed: " ++ toString failed.length ++ " suites failed")
    else
      let summary : Summary := {
        total := result3.results.length,
        passed := (result3.results.filter fun r => r.passed).length,
        failed := (result3.results.filter fun r => !r.passed).length,
        skipped := 0,
        duration := 0 }
      let result4 := { result3 with
        summary := summary,
        success := summary.failed == 0,
        totalDuration := summary.duration }
      let result5 := if opts.enableCache then
        { result4 with cacheStats := some ⟨0, summary.total, 0⟩ }
      else result4
      .ok result5

/-- `orchestrate` (source lines 279–415).  The function itself never throws:
the whole body runs inside `try … catch`, and the `catch` (source lines
407–412) appends the thrown message to the errors of the partially mutated
result object, which is then returned (line 414). -/
def orchestrate (g : Registry) (run : Runner) (suiteNames : List String)
    (opts : OrchestrationOptions) : OrchestrationResult :=
  match orchestrateBody g run suiteNames opts initialResult with
  | .ok r => r
  | .error (r, msg) => { r with errors := r.errors ++ [msg] }

/-- Concrete registry with a single suite `A` holding one file. -/
def regOne : Registry := [("A", { name := "A", files := ["a1"] })]

/-- A runner whose every invocation rejects. -/
def runReject : Runner := fun _ _ => .error "boom"

/-- A runner that always fulfills with one passing result (the shape the
source's mock produces on a pass). -/
def runPass : Runner := fun s f =>
  .ok [{ suite := s.name, file := f, name := "Test in " ++ f, passed := true }]

/-- The full task list `orchestrate` dispatches once the suite order is
resolved: filter, shard, then one task per surviving `(suite, file)` pair.
All of them are created before any outcome is inspected (source lines
344–364). -/
def orchTasks (g : Registry) (ordered : List String) (opts : OrchestrationOptions) :
    List (TestSuite × String) :=
  taskList (filterTests (lookupSuites g ordered) opts)
    (applySharding opts (collectFiles (filterTests (lookupSuites g ordered) opts))).1

/-- Concrete registry with suite `B` holding files `f1`, `f2`. -/
def regTwo : Registry := [("B", { name := "B", files := ["f1", "f2"] })]

/-- A runner that rejects on `f1` and fulfills on every other file. -/
def runRejectF1 : Runner := fun s f =>
  if f = "f1" then .error "fail f1"
  else .ok [{ suite := s.name, file := f, name := "Test in " ++ f, passed := true }]

/-- Concrete registry with suite `S` holding files `f1`, `f2`, `f3`. -/
def regThree : Registry := [("S", { name := "S", files := ["f1", "f2", "f3"] })]

/-! ## Theorems -/

/-- A successful lookup comes from an entry of the registry list. -/
theorem mapGet_mem (g : Registry) (n : String) (s : TestSuite)
    (h : mapGet g n = some s) : (n, s) ∈ g := by
  induction g with
  | nil => simp [mapGet] at h
  | cons p rest ih =>
      obtain ⟨k, v⟩ := p
      rw [mapGet] at h
      by_cases hk : k = n
      · rw [if_pos hk] at h
        subst hk
        cases h
        exact List.mem_cons_self _ _
      · rw [if_neg hk] at h
        exact List.mem_cons_of_mem _ (ih h)

/-- Every registered dependency name lies in the fuel universe. -/
theorem depsOf_subset_universe (g : Registry) (names : List String) (n d : String)
    (h : d ∈ depsOf g n) : d ∈ universeList g names := by
  rw [depsOf] at h
  rcases hg : mapGet g n with _ | su
  · rw [hg] at h
    simp at h
  · rw [hg] at h
    have hmem := mapGet_mem g n su hg
    rw [universeList]
    refine List.mem_append_right _ ?_
    rw [List.mem_flatMap]
    exact ⟨(n, su), hmem, by simp [h]⟩

/-- `visitMany` leaves the `visiting` set unchanged on normal completion
(the source deletes each name it adds, source line 179). -/
theorem visitMany_ok_visiting (g : Registry) (fuel : Nat) (ns : List String) (s : VisitState) :
    ∀ s', visitMany g fuel ns s = .ok s' → s'.visiting = s.visiting := by
  induction fuel, ns, s using visitMany.induct g with
  | case1 fuel s =>
      intro s' h
      rw [visitMany] at h
      cases h
      rfl
  | case2 name rest s =>
      intro s' h
      rw [visitMany] at h
      cases h
  | case3 fuel name rest s hmem ih =>
      intro s' h
      rw [visitMany, if_pos hmem] at h
      exact ih s' h
  | case4 fuel name rest s hnv hmem =>
      intro s' h
      rw [visitMany, if_neg hnv, if_pos hmem] at h
      cases h
  | case5 fuel name rest s hnv hnv2 s2 heq ih1 ih2 =>
      intro s' h
      rw [visitMany, if_neg hnv, if_neg hnv2, heq] at h
      have h2 := ih2 s' h
      have h1 := ih1 s2 heq
      simp only [h1] at h2
      rw [h2, List.erase_cons_head]
  | case6 fuel name rest s hnv hnv2 hne ih =>
      intro s' h
      rw [visitMany, if_neg hnv, if_neg hnv2] at h
      rcases hv : visitMany g fuel (depsOf g name)
          { visited := s.visited, visiting := name :: s.visiting, order := s.order } with s2 | cn | _
      · exact absurd hv (fun hv => hne s2 hv)
      · rw [hv] at h
        cases h
      · rw [hv] at h
        cases h

/-- The `visited` set only grows. -/
theorem visitMany_ok_visited_mono (g : Registry) (fuel : Nat) (ns : List String) (s : VisitState) :
    ∀ s', visitMany g fuel ns s = .ok s' → ∀ x ∈ s.visited, x ∈ s'.visited := by
  induction fuel, ns, s using visitMany.induct g with
  | case1 fuel s =>
      intro s' h
      rw [visitMany] at h
      cases h
      exact fun x hx => hx
  | case2 name rest s =>
      intro s' h
      rw [visitMany] at h
      cases h
  | case3 fuel name rest s hmem ih =>
      intro s' h
      rw [visitMany, if_pos hmem] at h
      exact ih s' h
  | case4 fuel name rest s hnv hmem =>
      intro s' h
      rw [visitMany, if_neg hnv, if_pos hmem] at h
      cases h
  | case5 fuel name rest s hnv hnv2 s2 heq ih1 ih2 =>
      intro s' h x hx
      rw [visitMany, if_neg hnv, if_neg hnv2, heq] at h
      exact ih2 s' h x (List.mem_cons_of_mem _ (ih1 s2 heq x hx))
  | case6 fuel name rest s hnv hnv2 hne ih =>
      intro s' h
      rw [visitMany, if_neg hnv, if_neg hnv2] at h
      rcases hv : visitMany g fuel (depsOf g name)
          { visited := s.visited, visiting := name :: s.visiting, order := s.order } with s2 | cn | _
      · exact absurd hv (fun hv => hne s2 hv)
      · rw [hv] at h
        cases h
      · rw [hv] at h
        cases h

/-- Names newly added to `visited` were not in the initial `visiting` set
(nodes on the current DFS stack cannot complete while still on it). -/
theorem visitMany_ok_visited_new (g : Registry) (fuel : Nat) (ns : List String) (s : VisitState) :
    ∀ s', visitMany g fuel ns s = .ok s' →
      ∀ x ∈ s'.visited, x ∈ s.visited ∨ x ∉ s.visiting := by
  induction fuel, ns, s using visitMany.induct g with
  | case1 fuel s =>
      intro s' h
      rw [visitMany] at h
      cases h
      exact fun x hx => Or.inl hx
  | case2 name rest s =>
      intro s' h
      rw [visitMany] at h
      cases h
  | case3 fuel name rest s hmem ih =>
      intro s' h
      rw [visitMany, if_pos hmem] at h
      exact ih s' h
  | case4 fuel name rest s hnv hmem =>
      intro s' h
      rw [visitMany, if_neg hnv, if_pos hmem] at h
      cases h
  | case5 fuel name rest s hnv hnv2 s2 heq ih1 ih2 =>
      intro s' h x hx
      rw [visitMany, if_neg hnv, if_neg hnv2, heq] at h
      have hviz : s2.visiting = name :: s.visiting :=
        visitMany_ok_visiting g fuel _ _ s2 heq
      rcases ih2 s' h x hx with hx' | hx'
      · rcases List.mem_cons.mp hx' with hx'' | hx''
        · exact Or.inr (hx'' ▸ hnv2)
        · rcases ih1 s2 heq x hx'' with hx3 | hx3
          · exact Or.inl hx3
          · exact Or.inr fun hc => hx3 (List.mem_cons_of_mem _ hc)
      · rw [hviz, List.erase_cons_head] at hx'
        exact Or.inr hx'
  | case6 fuel name rest s hnv hnv2 hne ih =>
      intro s' h
      rw [visitMany, if_neg hnv, if_neg hnv2] at h
      rcases hv : visitMany g fuel (depsOf g name)
          { visited := s.visited, visiting := name :: s.visiting, order := s.order } with s2 | cn | _
      · exact absurd hv (fun hv => hne s2 hv)
      · rw [hv] at h
        cases h
      · rw [hv] at h
        cases h

/-- Every name newly added to `visited` is reachable (through registered
dependency edges) from one of the names in the work list. -/
theorem visitMany_ok_reach (g : Registry) (fuel : Nat) (ns : List String) (s : VisitState) :
    ∀ s', visitMany g fuel ns s = .ok s' →
      ∀ x ∈ s'.visited, x ∈ s.visited ∨ ∃ r ∈ ns, Relation.ReflTransGen (depEdge g) r x := by
  induction fuel, ns, s using visitMany.induct g with
  | case1 fuel s =>
      intro s' h
      rw [visitMany] at h
      cases h
      exact fun x hx => Or.inl hx
  | case2 name rest s =>
      intro s' h
      rw [visitMany] at h
      cases h
  | case3 fuel name rest s hmem ih =>
      intro s' h x hx
      rw [visitMany, if_pos hmem] at h
      rcases ih s' h x hx with hx' | ⟨r, hr, hpath⟩
      · exact Or.inl hx'
      · exact Or.inr ⟨r, List.mem_cons_of_mem _ hr, hpath⟩
  | case4 fuel name rest s hnv hmem =>
      intro s' h
      rw [visitMany, if_neg hnv, if_pos hmem] at h
      cases h
  | case5 fuel name rest s hnv hnv2 s2 heq ih1 ih2 =>
      intro s' h x hx
      rw [visitMany, if_neg hnv, if_neg hnv2, heq] at h
      rcases ih2 s' h x hx with hx' | ⟨r, hr, hpath⟩
      · rcases List.mem_cons.mp hx' with hx'' | hx''
        · exact Or.inr ⟨name, List.mem_cons_self _ _, hx'' ▸ Relation.ReflTransGen.refl⟩
        · rcases ih1 s2 heq x hx'' with hx3 | ⟨d, hd, hpath⟩
          · exact Or.inl hx3
          · exact Or.inr ⟨name, List.mem_cons_self _ _, Relation.ReflTransGen.head hd hpath⟩
      · exact Or.inr ⟨r, List.mem_cons_of_mem _ hr, hpath⟩
  | case6 fuel name rest s hnv hnv2 hne ih =>
      intro s' h
      rw [visitMany, if_neg hnv, if_neg hnv2] at h
      rcases hv : visitMany g fuel (depsOf g name)
          { visited := s.visited, visiting := name :: s.visiting, order := s.order } with s2 | cn | _
      · exact absurd hv (fun hv => hne s2 hv)
      · rw [hv] at h
        cases h
      · rw [hv] at h
        cases h

/-- `visitMany` preserves the well-formedness invariant, and on success every
name of the work list ends up visited. -/
theorem visitMany_ok_good (g : Registry) (fuel : Nat) (ns : List String) (s : VisitState) :
    ∀ s', visitMany g fuel ns s = .ok s' → GoodState g s →
      GoodState g s' ∧ ∀ n ∈ ns, n ∈ s'.visited := by
  induction fuel, ns, s using visitMany.induct g with
  | case1 fuel s =>
      intro s' h hg
      rw [visitMany] at h
      cases h
      exact ⟨hg, by simp⟩
  | case2 name rest s =>
      intro s' h
      rw [visitMany] at h
      cases h
  | case3 fuel name rest s hmem ih =>
      intro s' h hg
      rw [visitMany, if_pos hmem] at h
      obtain ⟨hg', hrest⟩ := ih s' h hg
      refine ⟨hg', fun n hn => ?_⟩
      rcases List.mem_cons.mp hn with hn' | hn'
      · exact visitMany_ok_visited_mono g _ _ _ s' h n (hn' ▸ hmem)
      · exact hrest n hn'
  | case4 fuel name rest s hnv hmem =>
      intro s' h
      rw [visitMany, if_neg hnv, if_pos hmem] at h
      cases h
  | case5 fuel name rest s hnv hnv2 s2 heq ih1 ih2 =>
      intro s' h hg
      rw [visitMany, if_neg hnv, if_neg hnv2, heq] at h
      obtain ⟨hg2, hdeps⟩ := ih1 s2 heq ⟨hg.nodup, hg.visited_iff, hg.closed, hg.topo⟩
      have hname2 : name ∉ s2.visited := by
        intro hmem
        rcases visitMany_ok_visited_new g fuel _ _ s2 heq name hmem with hc | hc
        · exact hnv hc
        · exact hc (List.mem_cons_self _ _)
      have hnameord : name ∉ s2.order := fun hc => hname2 ((hg2.visited_iff name).mpr hc)
      have hgnew : GoodState g
          { visited := name :: s2.visited
            visiting := s2.visiting.erase name
            order := s2.order ++ [name] } := by
        refine ⟨?_, ?_, ?_, ?_⟩
        · simp [List.nodup_append, hg2.nodup, hnameord]
        · intro x
          simp only [List.mem_cons, List.mem_append, List.mem_singleton, hg2.visited_iff]
          tauto
        · intro n hn d hd
          rcases List.mem_cons.mp hn with hn' | hn'
          · exact List.mem_cons_of_mem _ (hdeps d (hn' ▸ hd))
          · exact List.mem_cons_of_mem _ (hg2.closed n hn' d hd)
        · intro n hn d hd
          have hdord : ∀ m, m ∈ s2.visited → m ∈ s2.order := fun m hm =>
            (hg2.visited_iff m).mp hm
          rcases List.mem_append.mp hn with hn' | hn'
          · have hnvis : n ∈ s2.visited := (hg2.visited_iff n).mpr hn'
            have hdvis : d ∈ s2.order := hdord d (hg2.closed n hnvis d hd)
            rw [List.indexOf_append_of_mem hdvis, List.indexOf_append_of_mem hn']
            exact hg2.topo n hn' d hd
          · have hn'' : n = name := List.mem_singleton.mp hn'
            have hdvis : d ∈ s2.order := hdord d (hdeps d (hn'' ▸ hd))
            show List.indexOf d (s2.order ++ [name]) < List.indexOf n (s2.order ++ [name])
            rw [hn'', List.indexOf_append_of_mem hdvis, List.indexOf_append_of_not_mem hnameord,
              List.indexOf_cons_self, Nat.add_zero]
            exact List.indexOf_lt_length.mpr hdvis
      obtain ⟨hg', hrest⟩ := ih2 s' h hgnew
      refine ⟨hg', fun n hn => ?_⟩
      rcases List.mem_cons.mp hn with hn' | hn'
      · exact visitMany_ok_visited_mono g _ _ _ s' h n (by simp [hn'])
      · exact hrest n hn'
  | case6 fuel name rest s hnv hnv2 hne ih =>
      intro s' h
      rw [visitMany, if_neg hnv, if_neg hnv2] at h
      rcases hv : visitMany g fuel (depsOf g name)
          { visited := s.visited, visiting := name :: s.visiting, order := s.order } with s2 | cn | _
      · exact absurd hv (fun hv => hne s2 hv)
      · rw [hv] at h
        cases h
      · rw [hv] at h
        cases h

/-- If the DFS raises the circular-dependency error, the reported name really
does transitively depend on itself — provided every name currently on the
`visiting` stack has a dependency path to every name of the work list. -/
theorem visitMany_cycle_self (g : Registry) (fuel : Nat) (ns : List String) (s : VisitState) :
    ∀ c, visitMany g fuel ns s = .cycle c →
      (∀ m ∈ s.visiting, ∀ n ∈ ns, Relation.TransGen (depEdge g) m n) →
      Relation.TransGen (depEdge g) c c := by
  induction fuel, ns, s using visitMany.induct g with
  | case1 fuel s =>
      intro c h
      rw [visitMany] at h
      cases h
  | case2 name rest s =>
      intro c h
      rw [visitMany] at h
      cases h
  | case3 fuel name rest s hmem ih =>
      intro c h hanc
      rw [visitMany, if_pos hmem] at h
      exact ih c h fun m hm n hn => hanc m hm n (List.mem_cons_of_mem _ hn)
  | case4 fuel name rest s hnv hmem =>
      intro c h hanc
      rw [visitMany, if_neg hnv, if_pos hmem] at h
      cases h
      exact hanc name hmem name (List.mem_cons_self _ _)
  | case5 fuel name rest s hnv hnv2 s2 heq ih1 ih2 =>
      intro c h hanc
      rw [visitMany, if_neg hnv, if_neg hnv2, heq] at h
      have hviz : s2.visiting = name :: s.visiting :=
        visitMany_ok_visiting g fuel _ _ s2 heq
      refine ih2 c h fun m hm n hn => ?_
      rw [hviz, List.erase_cons_head] at hm
      exact hanc m hm n (List.mem_cons_of_mem _ hn)
  | case6 fuel name rest s hnv hnv2 hne ih =>
      intro c h hanc
      rw [visitMany, if_neg hnv, if_neg hnv2] at h
      rcases hv : visitMany g fuel (depsOf g name)
          { visited := s.visited, visiting := name :: s.visiting, order := s.order } with s2 | cn | _
      · exact absurd hv (fun hv => hne s2 hv)
      · rw [hv] at h
        cases h
        refine ih c hv fun m hm n hn => ?_
        rcases List.mem_cons.mp hm with hm' | hm'
        · exact hm' ▸ Relation.TransGen.single hn
        · exact Relation.TransGen.tail (hanc m hm' name (List.mem_cons_self _ _)) hn
      · rw [hv] at h
        cases h

/-- Fuel sufficiency: with strictly more fuel than names the DFS could still
push onto `visiting`, `visitMany` never reports fuel exhaustion.  `U` is any
finite superset of the work list, the current `visiting` set and all
registered dependency names. -/
theorem visitMany_ne_fuelOut (g : Registry) (U : Finset String)
    (hclosed : ∀ n d, d ∈ depsOf g n → d ∈ U) (fuel : Nat) (ns : List String) (s : VisitState) :
    (∀ n ∈ ns, n ∈ U) → s.visiting.Nodup → (∀ x ∈ s.visiting, x ∈ U) →
      U.card - s.visiting.length < fuel → visitMany g fuel ns s ≠ .fuelOut := by
  induction fuel, ns, s using visitMany.induct g with
  | case1 fuel s =>
      intro _ _ _ _
      rw [visitMany]
      simp
  | case2 name rest s =>
      intro _ _ _ hlt
      omega
  | case3 fuel name rest s hmem ih =>
      intro hns hnd hsub hlt
      rw [visitMany, if_pos hmem]
      exact ih (fun n hn => hns n (List.mem_cons_of_mem _ hn)) hnd hsub hlt
  | case4 fuel name rest s hnv hmem =>
      intro _ _ _ _
      rw [visitMany, if_neg hnv, if_pos hmem]
      simp
  | case5 fuel name rest s hnv hnv2 s2 heq ih1 ih2 =>
      intro hns hnd hsub hlt
      rw [visitMany, if_neg hnv, if_neg hnv2, heq]
      have hviz : s2.visiting = name :: s.visiting :=
        visitMany_ok_visiting g fuel _ _ s2 heq
      refine ih2 (fun n hn => hns n (List.mem_cons_of_mem _ hn)) ?_ ?_ ?_ <;>
        rw [hviz, List.erase_cons_head]
      · exact hnd
      · exact hsub
      · exact hlt
  | case6 fuel name rest s hnv hnv2 hne ih =>
      intro hns hnd hsub hlt
      rw [visitMany, if_neg hnv, if_neg hnv2]
      have hnd' : (name :: s.visiting).Nodup := List.nodup_cons.mpr ⟨hnv2, hnd⟩
      have hsub' : ∀ x ∈ name :: s.visiting, x ∈ U := by
        intro x hx
        rcases List.mem_cons.mp hx with hx' | hx'
        · exact hx' ▸ hns name (List.mem_cons_self _ _)
        · exact hsub x hx'
      have hcard : (name :: s.visiting).length ≤ U.card := by
        have h1 : (name :: s.visiting).toFinset ⊆ U := fun x hx =>
          hsub' x (List.mem_toFinset.mp hx)
        have h2 : (name :: s.visiting).toFinset.card = (name :: s.visiting).length :=
          List.toFinset_card_of_nodup hnd'
        calc (name :: s.visiting).length = (name :: s.visiting).toFinset.card := h2.symm
          _ ≤ U.card := Finset.card_le_card h1
      have hlt' : U.card - (name :: s.visiting).length < fuel := by
        simp only [List.length_cons] at hcard ⊢
        omega
      rcases hv : visitMany g fuel (depsOf g name)
          { visited := s.visited, visiting := name :: s.visiting, order := s.order } with s2 | cn | _
      · exact absurd hv (fun hv => hne s2 hv)
      · simp
      · exact absurd hv (ih (fun n hn => hclosed name n hn) hnd' hsub' hlt')

/-- The fuel chosen by `resolveDependencies` is always sufficient: the
`fuelOut` modelling artifact never occurs. -/
theorem resolveDependencies_fuel (g : Registry) (names : List String) :
    visitMany g ((universeList g names).length + 1) names ⟨[], [], []⟩ ≠ .fuelOut := by
  apply visitMany_ne_fuelOut g (universeList g names).toFinset
  · exact fun n d hd => List.mem_toFinset.mpr (depsOf_subset_universe g names n d hd)
  · exact fun n hn => List.mem_toFinset.mpr (List.mem_append_left _ hn)
  · exact List.nodup_nil
  · intro x hx
    cases hx
  · have := List.toFinset_card_le (universeList g names)
    simp only [List.length_nil, Nat.sub_zero]
    omega

/-- The initial DFS state is well-formed. -/
theorem goodState_init (g : Registry) : GoodState g ⟨[], [], []⟩ :=
  ⟨List.nodup_nil, fun _ => Iff.rfl, (by intro n hn; cases hn), (by intro n hn; cases hn)⟩

/-- C1:  For every set of requested suite names whose registered dependency
graph contains no cycle, `resolveDependencies` returns a sequence containing
every requested (and transitively required) suite name exactly once
(`Nodup` plus the membership characterisation), and every suite's registered
dependencies appear strictly earlier in the sequence than the suite itself. -/
theorem resolveDependencies_topo_of_acyclic (g : Registry) (names : List String)
    (hacyc : ∀ n, ¬ Relation.TransGen (depEdge g) n n) :
    ∃ order, resolveDependencies g names = .ok order ∧ order.Nodup ∧
      (∀ n, n ∈ order ↔ ∃ r ∈ names, Relation.ReflTransGen (depEdge g) r n) ∧
      ∀ n ∈ order, ∀ d ∈ depsOf g n, order.indexOf d < order.indexOf n := by
  rw [resolveDependencies]
  rcases hv : visitMany g ((universeList g names).length + 1) names ⟨[], [], []⟩ with s' | c | _
  · obtain ⟨hg', hns⟩ := visitMany_ok_good g _ names _ s' hv (goodState_init g)
    refine ⟨s'.order, rfl, hg'.nodup, ?_, hg'.topo⟩
    intro n
    constructor
    · intro hn
      rcases visitMany_ok_reach g _ names _ s' hv n ((hg'.visited_iff n).mpr hn) with hc | hc
      · cases hc
      · exact hc
    · rintro ⟨r, hr, hpath⟩
      refine (hg'.visited_iff n).mp ?_
      induction hpath with
      | refl => exact hns r hr
      | tail hab hstep ih => exact hg'.closed _ ih _ hstep
  · exact absurd (visitMany_cycle_self g _ names _ c hv (by intro m hm; cases hm)) (hacyc c)
  · exact absurd hv (resolveDependencies_fuel g names)

/-- C2:  Whenever some requested suite transitively depends on itself,
`resolveDependencies` throws the `Circular dependency detected` error — naming
a suite that really lies on a cycle — and returns no ordering. -/
theorem resolveDependencies_cycle_error (g : Registry) (names : List String) (r : String)
    (hr : r ∈ names) (hcyc : Relation.TransGen (depEdge g) r r) :
    ∃ c, resolveDependencies g names = .error ("Circular dependency detected: " ++ c) ∧
      Relation.TransGen (depEdge g) c c := by
  rw [resolveDependencies]
  rcases hv : visitMany g ((universeList g names).length + 1) names ⟨[], [], []⟩ with s' | c | _
  · exfalso
    obtain ⟨hg', hns⟩ := visitMany_ok_good g _ names _ s' hv (goodState_init g)
    have hrord : r ∈ s'.order := (hg'.visited_iff r).mp (hns r hr)
    have key : ∀ b, Relation.TransGen (depEdge g) r b →
        b ∈ s'.order ∧ s'.order.indexOf b < s'.order.indexOf r := by
      intro b hb
      induction hb with
      | @single b' h =>
          have hbord : b' ∈ s'.order :=
            (hg'.visited_iff _).mp (hg'.closed r ((hg'.visited_iff r).mpr hrord) _ h)
          exact ⟨hbord, hg'.topo r hrord _ h⟩
      | @tail b' c' hab hstep ih =>
          obtain ⟨hbord', hlt⟩ := ih
          have hbord : c' ∈ s'.order :=
            (hg'.visited_iff _).mp (hg'.closed _ ((hg'.visited_iff _).mpr hbord') _ hstep)
          exact ⟨hbord, lt_trans (hg'.topo _ hbord' _ hstep) hlt⟩
    obtain ⟨_, hlt⟩ := key r hcyc
    exact absurd hlt (lt_irrefl _)
  · exact ⟨c, rfl, visitMany_cycle_self g _ names _ c hv (by intro m hm; cases hm)⟩
  · exact absurd hv (resolveDependencies_fuel g names)

/-- A graph admitting a rank strictly decreasing along every dependency edge
has no cycle. -/
theorem acyclic_of_rank (g : Registry) (f : String → Nat)
    (hf : ∀ a b, depEdge g a b → f b < f a) : ∀ n, ¬ Relation.TransGen (depEdge g) n n := by
  have step : ∀ a b, Relation.TransGen (depEdge g) a b → f b < f a := by
    intro a b h
    induction h with
    | @single b' h => exact hf _ _ h
    | @tail b' c' hab hstep ih => exact lt_trans (hf _ _ hstep) ih
  exact fun n hn => absurd (step n n hn) (lt_irrefl _)

/-- The concrete registry `regAB` is acyclic. -/
theorem regAB_acyclic : ∀ n, ¬ Relation.TransGen (depEdge regAB) n n := by
  apply acyclic_of_rank regAB (fun s => if s = "A" then 1 else 0)
  intro a b h
  rw [depEdge, depsOf] at h
  by_cases ha : a = "A"
  · subst ha
    rw [show mapGet regAB "A" = some suiteA from rfl] at h
    have hb : b = "B" := by simpa [suiteA] using h
    simp [hb]
  · by_cases hb2 : a = "B"
    · subst hb2
      rw [show mapGet regAB "B" = some suiteB from rfl] at h
      simp [suiteB] at h
    · have h1 : ¬("A" = a) := fun hc => ha hc.symm
      have h2 : ¬("B" = a) := fun hc => hb2 hc.symm
      have hnone : mapGet regAB a = none := by simp [regAB, mapGet, h1, h2]
      rw [hnone] at h
      simp at h

/-- Witness for C1: the acyclicity hypothesis holds for the concrete registry
`regAB`, and the theorem yields its topologically sorted output. -/
theorem resolveDependencies_topo_of_acyclic_witness :
    ∃ order, resolveDependencies regAB ["A"] = .ok order ∧ order.Nodup ∧
      (∀ n, n ∈ order ↔ ∃ r ∈ ["A"], Relation.ReflTransGen (depEdge regAB) r n) ∧
      ∀ n ∈ order, ∀ d ∈ depsOf regAB n, order.indexOf d < order.indexOf n :=
  resolveDependencies_topo_of_acyclic regAB ["A"] regAB_acyclic

/-- Witness for C2: the self-dependent registry `regLoop` satisfies the cycle
hypothesis at the requested name `C`. -/
theorem resolveDependencies_cycle_error_witness :
    ∃ c, resolveDependencies regLoop ["C"] = .error ("Circular dependency detected: " ++ c) ∧
      Relation.TransGen (depEdge regLoop) c c :=
  resolveDependencies_cycle_error regLoop ["C"] "C" (by decide)
    (Relation.TransGen.single (show "C" ∈ depsOf regLoop "C" by decide))

/-- C10 counterexample:  The claim says a requested name not found in the
registry "contributes no entry to the returned ordered list".  On the empty
registry, resolving `["X"]` returns the list `["X"]`: the unregistered name is
emitted (and no error is raised). -/
theorem resolve_unregistered_counterexample :
    resolveDependencies [] ["X"] = .ok ["X"] := by
  simp [resolveDependencies, visitMany, universeList, depsOf, mapGet]

/-- C10 (amended):  A name not found in the registry raises no error and is
treated as having no dependencies, but it *does* contribute an entry to the
returned list: on success every requested name, registered or not, appears in
the output. -/
theorem resolve_unregistered_no_deps_but_emitted (g : Registry) (names : List String)
    (n : String) (hn : mapGet g n = none) :
    depsOf g n = [] ∧
      ∀ order, resolveDependencies g names = .ok order → n ∈ names → n ∈ order := by
  constructor
  · rw [depsOf, hn]
  · intro order h hmem
    rw [resolveDependencies] at h
    rcases hv : visitMany g ((universeList g names).length + 1) names ⟨[], [], []⟩ with s' | c | _
    · rw [hv] at h
      cases h
      obtain ⟨hg', hns⟩ := visitMany_ok_good g _ names _ s' hv (goodState_init g)
      exact (hg'.visited_iff n).mp (hns n hmem)
    · rw [hv] at h
      cases h
    · rw [hv] at h
      cases h

/-- Witness for the amended C10, at the empty registry and request `["X"]`. -/
theorem resolve_unregistered_no_deps_but_emitted_witness :
    depsOf [] "X" = [] ∧
      ∀ order, resolveDependencies [] ["X"] = .ok order → "X" ∈ ["X"] → "X" ∈ order :=
  resolve_unregistered_no_deps_but_emitted [] ["X"] "X" rfl

/-- C7 counterexample:  The claim says re-registering a name fails with a
`DuplicateSuite` error and leaves the stored definition unchanged.  The code
has no duplicate check: registering `X` twice succeeds and the second
definition replaces the first. -/
theorem registerSuite_duplicate_counterexample :
    mapGet (registerSuite (registerSuite [] suiteX1) suiteX2) "X" = some suiteX2 ∧
      suiteX2 ≠ suiteX1 := by
  exact ⟨rfl, by decide⟩

/-- C7 (amended):  `registerSuite` never fails: registering a suite under
an already-registered name silently replaces the stored definition (last
registration wins). -/
theorem registerSuite_overwrites (m : Registry) (suite : TestSuite) :
    mapGet (registerSuite m suite) suite.name = some suite := by
  rw [registerSuite]
  induction m with
  | nil => simp [mapSet, mapGet]
  | cons p rest ih =>
      obtain ⟨k, v⟩ := p
      rw [mapSet]
      by_cases hk : k = suite.name
      · rw [if_pos hk, mapGet, if_pos rfl]
      · rw [if_neg hk, mapGet, if_neg hk]
        exact ih

/-- `pushFile` preserves the number of shards. -/
theorem pushFile_length (shards : List TestShard) (i : Nat) (f : String) :
    (pushFile shards i f).length = shards.length := by
  induction shards generalizing i with
  | nil => rfl
  | cons sh rest ih => cases i <;> simp [pushFile, ih]

/-- Pointwise description of `pushFile`: shard `i` gains `f` at the end of its
file list, all other shards are untouched. -/
theorem pushFile_get (shards : List TestShard) (i : Nat) (f : String) (j : Nat) :
    (pushFile shards i f)[j]? =
      if j = i then (shards[j]?).map (fun sh => { sh with files := sh.files ++ [f] })
      else shards[j]? := by
  induction shards generalizing i j with
  | nil => simp [pushFile]
  | cons sh rest ih =>
      cases i with
      | zero =>
          cases j with
          | zero => simp [pushFile]
          | succ j => simp [pushFile]
      | succ i =>
          cases j with
          | zero => simp [pushFile]
          | succ j => simpa [pushFile, Nat.succ_inj'] using ih i j

/-- `distributeFiles` preserves the number of shards. -/
theorem distributeFiles_length (n : Nat) (files : List String) (k : Nat)
    (shards : List TestShard) :
    (distributeFiles shards n k files).length = shards.length := by
  induction files generalizing k shards with
  | nil => rfl
  | cons f rest ih => rw [distributeFiles, ih, pushFile_length]

/-- Pointwise description of the distribution loop: shard `j` receives exactly
the files at positions congruent to `j` modulo `n`, appended in order. -/
theorem distributeFiles_get (n : Nat) (files : List String) (k : Nat)
    (shards : List TestShard) (j : Nat) :
    (distributeFiles shards n k files)[j]? =
      (shards[j]?).map (fun sh => { sh with files := sh.files ++ selectFrom n k j files }) := by
  induction files generalizing k shards with
  | nil =>
      rw [distributeFiles]
      cases hsh : shards[j]? with
      | none => simp
      | some sh => simp [selectFrom]
  | cons f rest ih =>
      rw [distributeFiles, ih, pushFile_get]
      by_cases hj : j = k % n
      · rw [if_pos hj]
        cases hsh : shards[j]? with
        | none => simp
        | some sh =>
            simp only [Option.map_some, Option.map_map]
            rw [selectFrom, if_pos hj.symm]
            simp [Function.comp, List.append_assoc]
      · rw [if_neg hj]
        rw [selectFrom, if_neg (fun hc => hj hc.symm)]

/-- `pushFile` onto a valid index appends exactly one copy of the file to the
multiset of all distributed files. -/
theorem pushFile_join (shards : List TestShard) (i : Nat) (f : String)
    (hi : i < shards.length) :
    ((pushFile shards i f).map TestShard.files).flatten.Perm
      ((shards.map TestShard.files).flatten ++ [f]) := by
  induction shards generalizing i with
  | nil => simp at hi
  | cons sh rest ih =>
      cases i with
      | zero =>
          simp only [pushFile, List.map_cons, List.flatten_cons]
          rw [List.append_assoc, List.append_assoc]
          exact List.Perm.append_left sh.files List.perm_append_comm
      | succ i =>
          simp only [pushFile, List.map_cons, List.flatten_cons]
          rw [List.append_assoc]
          exact List.Perm.append_left sh.files (ih i (Nat.lt_of_succ_lt_succ hi))

/-- The distribution loop only rearranges: the multiset of all files across
shards after distribution is the multiset before plus the distributed list. -/
theorem distributeFiles_join (n : Nat) (files : List String) (k : Nat)
    (shards : List TestShard) (hlen : shards.length = n) (hn : 0 < n) :
    ((distributeFiles shards n k files).map TestShard.files).flatten.Perm
      ((shards.map TestShard.files).flatten ++ files) := by
  induction files generalizing k shards with
  | nil =>
      rw [distributeFiles]
      simp
  | cons f rest ih =>
      rw [distributeFiles]
      have hlen' : (pushFile shards (k % n) f).length = n := by rw [pushFile_length, hlen]
      refine (ih (k + 1) (pushFile shards (k % n) f) hlen').trans ?_
      have h2 := pushFile_join shards (k % n) f (by rw [hlen]; exact Nat.mod_lt _ hn)
      refine (h2.append_right rest).trans ?_
      rw [List.append_assoc, List.singleton_append]

/-- Closed-form description of `createShards`: shard `j` carries index `j`,
total `shardCount`, the informational environment entries, and exactly the
files at positions congruent to `j` modulo `shardCount`, in order. -/
theorem createShards_get (files : List String) (n j : Nat) (hj : j < n) :
    (createShards files n)[j]? = some
      { index := j, total := n, files := selectFrom n 0 j files
        env := [("TEST_SHARD_INDEX", toString j), ("TEST_TOTAL_SHARDS", toString n)] } := by
  rw [createShards]
  rw [distributeFiles_get]
  have hbase : ((List.range n).map fun index =>
      ({ index := index, total := n, files := []
         env := [("TEST_SHARD_INDEX", toString index),
                 ("TEST_TOTAL_SHARDS", toString n)] } : TestShard))[j]? = some
      { index := j, total := n, files := []
        env := [("TEST_SHARD_INDEX", toString j), ("TEST_TOTAL_SHARDS", toString n)] } := by
    rw [List.getElem?_map, List.getElem?_range hj]
    rfl
  rw [hbase]
  rfl

/-- `createShards` always returns exactly `shardCount` shards. -/
theorem createShards_length (files : List String) (n : Nat) :
    (createShards files n).length = n := by
  rw [createShards, distributeFiles_length]
  simp

/-- Everything a shard receives comes from the distributed list. -/
theorem selectFrom_subset (n k j : Nat) (files : List String) :
    ∀ f ∈ selectFrom n k j files, f ∈ files := by
  induction files generalizing k with
  | nil => simp [selectFrom]
  | cons g rest ih =>
      intro f hf
      rw [selectFrom] at hf
      by_cases hk : k % n = j
      · rw [if_pos hk] at hf
        rcases List.mem_cons.mp hf with hf' | hf'
        · exact hf' ▸ List.mem_cons_self _ _
        · exact List.mem_cons_of_mem _ (ih (k + 1) f hf')
      · rw [if_neg hk] at hf
        exact List.mem_cons_of_mem _ (ih (k + 1) f hf)

/-- On a duplicate-free list, distinct residue classes are disjoint. -/
theorem selectFrom_disjoint (n : Nat) (files : List String) (j1 j2 : Nat)
    (hne : j1 ≠ j2) (f : String) :
    ∀ k, files.Nodup → f ∈ selectFrom n k j1 files → f ∈ selectFrom n k j2 files → False := by
  induction files with
  | nil =>
      intro k _ h1 _
      simp [selectFrom] at h1
  | cons g rest ih =>
      intro k hnd h1 h2
      rw [selectFrom] at h1 h2
      have hgrest : g ∉ rest := (List.nodup_cons.mp hnd).1
      have hndr : rest.Nodup := (List.nodup_cons.mp hnd).2
      by_cases hk1 : k % n = j1
      · rw [if_pos hk1] at h1
        rw [if_neg (hk1 ▸ hne)] at h2
        rcases List.mem_cons.mp h1 with hf' | hf'
        · exact hgrest (hf' ▸ selectFrom_subset n (k + 1) j2 rest f h2)
        · exact ih (k + 1) hndr hf' h2
      · rw [if_neg hk1] at h1
        by_cases hk2 : k % n = j2
        · rw [if_pos hk2] at h2
          rcases List.mem_cons.mp h2 with hf' | hf'
          · exact hgrest (hf' ▸ selectFrom_subset n (k + 1) j1 rest f h1)
          · exact ih (k + 1) hndr h1 hf'
        · rw [if_neg hk2] at h2
          exact ih (k + 1) hndr h1 h2

/-- The file at position `i` of the distributed list lands in residue class
`(k + i) % n`. -/
theorem selectFrom_mem (n : Nat) (files : List String) (k i : Nat) (f : String)
    (hf : files[i]? = some f) : f ∈ selectFrom n k ((k + i) % n) files := by
  induction files generalizing k i with
  | nil => simp at hf
  | cons g rest ih =>
      cases i with
      | zero =>
          have hgf : g = f := by simpa using hf
          rw [selectFrom, Nat.add_zero, if_pos rfl]
          exact hgf ▸ List.mem_cons_self _ _
      | succ i =>
          have hf' : rest[i]? = some f := by simpa using hf
          have hmem := ih (k + 1) i hf'
          have harith : (k + 1 + i) % n = (k + (i + 1)) % n := by
            congr 1
            omega
          rw [harith] at hmem
          rw [selectFrom]
          by_cases hk : k % n = (k + (i + 1)) % n
          · rw [if_pos hk]
            exact List.mem_cons_of_mem _ hmem
          · rw [if_neg hk]
            exact hmem

/-- The freshly created shards hold no files. -/
theorem baseShards_flatten_nil (shardCount : Nat) :
    ((((List.range shardCount).map fun index =>
      ({ index := index, total := shardCount, files := []
         env := [("TEST_SHARD_INDEX", toString index),
                 ("TEST_TOTAL_SHARDS", toString shardCount)] } : TestShard))).map
        TestShard.files).flatten = [] := by
  rw [List.map_map]
  induction shardCount with
  | zero => rfl
  | succ m ih =>
      rw [List.range_succ, List.map_append, List.flatten_append]
      simp [ih]

/-- C3:  For every file list `F` and shard count `N ≥ 1`, `createShards`
returns exactly `N` shards; shard `j` carries index `j`, total `N`, and the
files of `F` at positions congruent to `j` modulo `N`; the shards' file lists
taken together are a permutation of `F` (no file duplicated or dropped); on a
duplicate-free `F` distinct shards are disjoint; and the file at position `i`
of `F` is assigned to shard `i % N`. -/
theorem createShards_partition (files : List String) (shardCount : Nat) (hn : 1 ≤ shardCount) :
    (createShards files shardCount).length = shardCount ∧
    (∀ j, j < shardCount → ∃ sh, (createShards files shardCount)[j]? = some sh ∧
      sh.index = j ∧ sh.total = shardCount ∧ sh.files = selectFrom shardCount 0 j files) ∧
    ((createShards files shardCount).map TestShard.files).flatten.Perm files ∧
    (files.Nodup → ∀ (j1 j2 : Nat) (sh1 sh2 : TestShard),
      (createShards files shardCount)[j1]? = some sh1 →
      (createShards files shardCount)[j2]? = some sh2 → j1 ≠ j2 →
      ∀ f, f ∈ sh1.files → f ∈ sh2.files → False) ∧
    ∀ i f, files[i]? = some f → ∃ sh,
      (createShards files shardCount)[i % shardCount]? = some sh ∧ f ∈ sh.files := by
  have hpos : 0 < shardCount := hn
  refine ⟨createShards_length files shardCount, ?_, ?_, ?_, ?_⟩
  · intro j hj
    exact ⟨_, createShards_get files shardCount j hj, rfl, rfl, rfl⟩
  · rw [createShards]
    refine (distributeFiles_join shardCount files 0 _ (by simp) hpos).trans ?_
    rw [baseShards_flatten_nil, List.nil_append]
  · intro hnd j1 j2 sh1 sh2 h1 h2 hne f hf1 hf2
    have hj1 : j1 < shardCount := by
      rw [List.getElem?_eq_some] at h1
      obtain ⟨hlt, _⟩ := h1
      rwa [createShards_length] at hlt
    have hj2 : j2 < shardCount := by
      rw [List.getElem?_eq_some] at h2
      obtain ⟨hlt, _⟩ := h2
      rwa [createShards_length] at hlt
    rw [createShards_get files shardCount j1 hj1] at h1
    cases h1
    rw [createShards_get files shardCount j2 hj2] at h2
    cases h2
    exact selectFrom_disjoint shardCount files j1 j2 hne f 0 hnd hf1 hf2
  · intro i f hf
    have him : i % shardCount < shardCount := Nat.mod_lt _ hpos
    refine ⟨_, createShards_get files shardCount _ him, ?_⟩
    have hmem := selectFrom_mem shardCount files 0 i f hf
    rwa [Nat.zero_add] at hmem

/-- Witness for C3 at the spec's own scenario: five files over two shards;
shard 0 receives `f1, f3, f5` and shard 1 receives `f2, f4`. -/
theorem createShards_partition_witness :
    (1 ≤ 2 ∧
      selectFrom 2 0 0 ["f1", "f2", "f3", "f4", "f5"] = ["f1", "f3", "f5"] ∧
      selectFrom 2 0 1 ["f1", "f2", "f3", "f4", "f5"] = ["f2", "f4"]) ∧
    ((createShards ["f1", "f2", "f3", "f4", "f5"] 2).length = 2 ∧
    (∀ j, j < 2 → ∃ sh, (createShards ["f1", "f2", "f3", "f4", "f5"] 2)[j]? = some sh ∧
      sh.index = j ∧ sh.total = 2 ∧ sh.files = selectFrom 2 0 j ["f1", "f2", "f3", "f4", "f5"]) ∧
    ((createShards ["f1", "f2", "f3", "f4", "f5"] 2).map TestShard.files).flatten.Perm
      ["f1", "f2", "f3", "f4", "f5"] ∧
    ((["f1", "f2", "f3", "f4", "f5"] : List String).Nodup → ∀ (j1 j2 : Nat) (sh1 sh2 : TestShard),
      (createShards ["f1", "f2", "f3", "f4", "f5"] 2)[j1]? = some sh1 →
      (createShards ["f1", "f2", "f3", "f4", "f5"] 2)[j2]? = some sh2 → j1 ≠ j2 →
      ∀ f, f ∈ sh1.files → f ∈ sh2.files → False) ∧
    ∀ i f, (["f1", "f2", "f3", "f4", "f5"] : List String)[i]? = some f → ∃ sh,
      (createShards ["f1", "f2", "f3", "f4", "f5"] 2)[i % 2]? = some sh ∧ f ∈ sh.files) :=
  ⟨⟨by decide, by decide, by decide⟩,
    createShards_partition ["f1", "f2", "f3", "f4", "f5"] 2 (by decide)⟩

/-- Each step preserves `permits + running`. -/
theorem semStep_invariant (s s' : SemState) (h : SemStep s s') :
    s'.permits + s'.running = s.permits + s.running := by
  cases h <;> simp <;> omega

/-- C4:  In every state the semaphore system can reach from
`new Semaphore(k)`, the number of tasks simultaneously holding a permit
(running runner invocations) never exceeds `k`; in fact
`permits + running = k` throughout. -/
theorem semaphore_running_le_concurrency (k : Nat) (s : SemState)
    (h : SemReachable k s) : s.permits + s.running = k ∧ s.running ≤ k := by
  have key : s.permits + s.running = k := by
    induction h with
    | refl => rfl
    | tail hab hstep ih => rw [semStep_invariant _ _ hstep, ih]
  exact ⟨key, by omega⟩

/-- Witness for C4: with concurrency 2, after two `acquire`s, one queued
`acquire` and one hand-over `release`, exactly two tasks run — within the
bound. -/
theorem semaphore_running_le_concurrency_witness :
    SemReachable 2 ⟨0, 0, 2⟩ ∧ ((0 : Nat) + 2 = 2 ∧ 2 ≤ 2) := by
  have h1 : SemStep ⟨2, 0, 0⟩ ⟨1, 0, 1⟩ := SemStep.acquireFast 1 0 0
  have h2 : SemStep ⟨1, 0, 1⟩ ⟨0, 0, 2⟩ := SemStep.acquireFast 0 0 1
  have h3 : SemStep ⟨0, 0, 2⟩ ⟨0, 1, 2⟩ := SemStep.acquireWait 0 2
  have h4 : SemStep ⟨0, 1, 2⟩ ⟨0, 0, 2⟩ := SemStep.releaseWake 0 0 1
  have hreach : SemReachable 2 ⟨0, 0, 2⟩ :=
    Relation.ReflTransGen.tail (Relation.ReflTransGen.tail (Relation.ReflTransGen.tail
      (Relation.ReflTransGen.single h1) h2) h3) h4
  exact ⟨hreach, semaphore_running_le_concurrency 2 ⟨0, 0, 2⟩ hreach⟩

/-- When the `try` block completes, `success` is set to exactly
`summary.failed === 0` (source line 396) — orchestration-level `errors` play
no part. -/
theorem orchestrateBody_ok_success (g : Registry) (run : Runner) (names : List String)
    (opts : OrchestrationOptions) (r0 r : OrchestrationResult)
    (h : orchestrateBody g run names opts r0 = .ok r) :
    r.success = (r.summary.failed == 0) := by
  rw [orchestrateBody] at h
  split at h
  · cases h
  · dsimp only at h
    split at h
    · cases h
    · split at h
      · cases h
        rfl
      · cases h
        rfl

/-- A throw inside the `try` block leaves the `success` field of the carried
result object untouched. -/
theorem orchestrateBody_error_success (g : Registry) (run : Runner) (names : List String)
    (opts : OrchestrationOptions) (r0 r : OrchestrationResult) (msg : String)
    (h : orchestrateBody g run names opts r0 = .error (r, msg)) :
    r.success = r0.success := by
  rw [orchestrateBody] at h
  split at h
  · cases h
    rfl
  · dsimp only at h
    split at h
    · cases h
      split
      · split
        · rfl
        · rfl
      · split
        · rfl
        · rfl
    · split at h
      · cases h
      · cases h

/-- C5 counterexample:  The claim says `success = true` iff
`summary.failed = 0` *and* `errors` is empty.  With `continueOnError` left at
its default `true` and a runner whose single task rejects, the returned
result has `success = true` while `errors = ["boom"]` is non-empty (the
rejected task contributes no `TestResult`, so `failed = 0`). -/
theorem orchestrate_success_despite_errors_counterexample :
    (orchestrate regOne runReject ["A"] {}).success = true ∧
      (orchestrate regOne runReject ["A"] {}).errors = ["boom"] := by
  have hres : resolveDependencies regOne ["A"] = .ok ["A"] := by
    simp [resolveDependencies, visitMany, universeList, depsOf, mapGet, regOne]
  constructor
  · rw [orchestrate, orchestrateBody, hres]
    rfl
  · rw [orchestrate, orchestrateBody, hres]
    rfl

/-- C5 (amended):  `success = true` holds iff the `try` block ran to
completion (no cycle error, no `continueOnError = false` abort) and the
failed count over the collected results is 0.  Orchestration-level error
entries recorded under `continueOnError = true` do not affect `success`. -/
theorem orchestrate_success_iff (g : Registry) (run : Runner) (names : List String)
    (opts : OrchestrationOptions) :
    (orchestrate g run names opts).success = true ↔
      ∃ r, orchestrateBody g run names opts initialResult = .ok r ∧
        r.summary.failed = 0 := by
  rw [orchestrate]
  rcases hb : orchestrateBody g run names opts initialResult with ⟨r, msg⟩ | r
  · dsimp only
    have hs := orchestrateBody_error_success g run names opts initialResult r msg hb
    constructor
    · intro h
      rw [hs] at h
      simp [initialResult] at h
    · rintro ⟨r', hr', _⟩
      cases hr'
  · dsimp only
    have hs := orchestrateBody_ok_success g run names opts initialResult r hb
    constructor
    · intro h
      refine ⟨r, rfl, ?_⟩
      rw [hs] at h
      simpa using h
    · rintro ⟨r', hr', hf⟩
      injection hr' with hrr
      rw [← hrr] at hf
      rw [hs, hf]
      rfl

/-- C6 counterexample:  The claim says `orchestrate` throws exactly when
dependency resolution detects a cycle, surfacing the structural error to the
caller.  In the code the whole body sits in `try … catch` (source lines
308/407): on the self-cyclic registry the cycle error is thrown inside the
`try` block, caught, and recorded in `result.errors` — `orchestrate` returns
this result to the caller normally instead of throwing. -/
theorem orchestrate_cycle_not_thrown_counterexample :
    orchestrateBody regLoop runPass ["C"] {} initialResult =
      .error (initialResult, "Circular dependency detected: C") ∧
    orchestrate regLoop runPass ["C"] {} =
      { initialResult with errors := ["Circular dependency detected: C"] } := by
  have hres : resolveDependencies regLoop ["C"] = .error "Circular dependency detected: C" := by
    simp [resolveDependencies, visitMany, universeList, depsOf, mapGet, regLoop, suiteLoop]
  constructor
  · rw [orchestrateBody, hres]
  · rw [orchestrate, orchestrateBody, hres]
    rfl

/-- C6 (amended):  `orchestrate` never throws.  When dependency resolution
fails (a detected cycle), the error is caught like every other failure and
captured inside the returned `OrchestrationResult`: the call aborts before
any dispatch (`results = []`), `success` stays `false`, and `errors` holds
exactly the cycle message. -/
theorem orchestrate_cycle_captured (g : Registry) (run : Runner) (names : List String)
    (opts : OrchestrationOptions) (e : String)
    (hres : resolveDependencies g names = .error e) :
    orchestrate g run names opts = { initialResult with errors := [e] } := by
  rw [orchestrate, orchestrateBody, hres]
  rfl

/-- Witness for the amended C6, at the concrete self-cyclic registry. -/
theorem orchestrate_cycle_captured_witness :
    orchestrate regLoop runPass ["C"] { concurrency := 2 } =
      { initialResult with errors := ["Circular dependency detected: C"] } :=
  orchestrate_cycle_captured regLoop runPass ["C"] { concurrency := 2 }
    "Circular dependency detected: C"
    (by simp [resolveDependencies, visitMany, universeList, depsOf, mapGet, regLoop, suiteLoop])

/-- C8 counterexample:  The claim says that with `continueOnError = false`
no new tasks are dispatched after the first failure (remaining dispatch is
aborted).  In the code every task is dispatched up front and
`Promise.allSettled` waits for all of them; the failure check happens only
afterwards.  With files `[f1, f2]` and a runner failing on `f1`, the returned
result still contains `f2`'s executed outcome — `f2`'s dispatch was not
aborted — while the call reports failure with a zeroed summary. -/
theorem orchestrate_dispatch_not_aborted_counterexample :
    orchestrate regTwo runRejectF1 ["B"] { continueOnError := false } =
      { success := false, totalDuration := 0,
        results := [{ suite := "B", file := "f2", name := "Test in f2", passed := true }],
        summary := {}, sharding := none,
        errors := ["fail f1", "Test orchestration failed: 1 suites failed"],
        cacheStats := none } := by
  have hres : resolveDependencies regTwo ["B"] = .ok ["B"] := by
    simp [resolveDependencies, visitMany, universeList, depsOf, mapGet, regTwo]
  rw [orchestrate, orchestrateBody, hres]
  rfl

/-- C8 (amended):  With `continueOnError = false`, all tasks are dispatched
and settle regardless of failures — the outcome of every task is recorded
(successes in `results`, every rejection message in `errors`) — and then, if
any task failed, the call reports failure: `success = false`, a trailing
summary error entry, and the summary counters left zeroed (aggregation is
skipped by the internal throw). -/
theorem orchestrate_continueOnError_false_runs_all (g : Registry) (run : Runner)
    (names : List String) (opts : OrchestrationOptions) (ordered : List String)
    (hres : resolveDependencies g names = .ok ordered)
    (hcoe : opts.continueOnError = false)
    (hfail : failedMessages (taskOutcomes run (orchTasks g ordered opts)) ≠ []) :
    orchestrate g run names opts =
      { success := false, totalDuration := 0,
        results := successfulResults (taskOutcomes run (orchTasks g ordered opts)),
        summary := {},
        sharding := (applySharding opts (collectFiles (filterTests (lookupSuites g ordered) opts))).2,
        errors := failedMessages (taskOutcomes run (orchTasks g ordered opts)) ++
          ["Test orchestration failed: " ++
            toString (failedMessages (taskOutcomes run (orchTasks g ordered opts))).length ++
            " suites failed"],
        cacheStats := none } := by
  have hie : (failedMessages (taskOutcomes run (orchTasks g ordered opts))).isEmpty = false := by
    rw [List.isEmpty_eq_false]
    exact hfail
  rw [orchestrate, orchestrateBody, hres]
  dsimp only
  rw [show taskList (filterTests (lookupSuites g ordered) opts)
    (applySharding opts (collectFiles (filterTests (lookupSuites g ordered) opts))).1 =
    orchTasks g ordered opts from rfl]
  rw [hie, hcoe]
  simp only [Bool.not_false, Bool.and_self, if_true]
  rcases hsh : (applySharding opts (collectFiles (filterTests (lookupSuites g ordered) opts))).2
    with _ | si
  · simp [initialResult]
  · simp [initialResult]

/-- Witness for the amended C8 at the two-file registry with a runner that
rejects on the first file. -/
theorem orchestrate_continueOnError_false_runs_all_witness :
    orchestrate regTwo runRejectF1 ["B"] { continueOnError := false } =
      { success := false, totalDuration := 0,
        results := successfulResults (taskOutcomes runRejectF1
          (orchTasks regTwo ["B"] { continueOnError := false })),
        summary := {},
        sharding := (applySharding { continueOnError := false }
          (collectFiles (filterTests (lookupSuites regTwo ["B"]) { continueOnError := false }))).2,
        errors := failedMessages (taskOutcomes runRejectF1
            (orchTasks regTwo ["B"] { continueOnError := false })) ++
          ["Test orchestration failed: " ++
            toString (failedMessages (taskOutcomes runRejectF1
              (orchTasks regTwo ["B"] { continueOnError := false }))).length ++
            " suites failed"],
        cacheStats := none } :=
  orchestrate_continueOnError_false_runs_all regTwo runRejectF1 ["B"]
    { continueOnError := false } ["B"]
    (by simp [resolveDependencies, visitMany, universeList, depsOf, mapGet, regTwo])
    rfl (by decide)

/-- C9 counterexample:  The claim says an out-of-range `shardIndex` falls
back to shard 0.  With 3 files, 2 shards and `shardIndex = 5`,
`shards[5]` is `undefined`, so the `if (targetShard)` guard skips sharding
entirely: all 3 files run and no sharding metadata is recorded — whereas the
claimed shard-0 fallback (shown at `shardIndex = 0`) runs the 2 files
`[f1, f3]` and records shard 0's metadata. -/
theorem orchestrate_shard_out_of_range_counterexample :
    (orchestrate regThree runPass ["S"]
      { sharding := true, shardCount := 2, shardIndex := some 5 }).sharding = none ∧
    (orchestrate regThree runPass ["S"]
      { sharding := true, shardCount := 2, shardIndex := some 5 }).results.length = 3 ∧
    (orchestrate regThree runPass ["S"]
      { sharding := true, shardCount := 2, shardIndex := some 0 }).sharding =
      some { shardIndex := 0, totalShards := 2, shardFiles := ["f1", "f3"] } ∧
    (orchestrate regThree runPass ["S"]
      { sharding := true, shardCount := 2, shardIndex := some 0 }).results.length = 2 := by
  have hres : resolveDependencies regThree ["S"] = .ok ["S"] := by
    simp [resolveDependencies, visitMany, universeList, depsOf, mapGet, regThree]
  refine ⟨?_, ?_, ?_, ?_⟩ <;> (rw [orchestrate, orchestrateBody, hres]; rfl)

/-- With an out-of-range `shardIndex`, the sharding step restricts nothing and
records nothing (`shards[i]` is `undefined`, source lines 328–338). -/
theorem applySharding_out_of_range (opts : OrchestrationOptions) (i : Nat) (files : List String)
    (hidx : opts.shardIndex = some i) (hrange : opts.shardCount ≤ i) :
    applySharding opts files = (files, none) := by
  rw [applySharding]
  split
  · rw [hidx]
    dsimp only
    have hnone : (createShards files opts.shardCount)[i]? = none := by
      rw [List.getElem?_eq_none]
      rw [createShards_length]
      exact hrange
    rw [hnone]
  · rfl

/-- With `sharding := false` the sharding step is skipped. -/
theorem applySharding_disabled (opts : OrchestrationOptions) (files : List String) :
    applySharding { opts with sharding := false } files = (files, none) := by
  rw [applySharding]
  simp

/-- C9 (amended):  An out-of-range `shardIndex` does not fall back to
shard 0: it disables sharding for the call altogether.  The call proceeds
(not fatal) exactly as if `sharding` were `false` — the full filtered file
set is executed and no sharding metadata is recorded. -/
theorem orchestrate_shard_out_of_range_ignored (g : Registry) (run : Runner)
    (names : List String) (opts : OrchestrationOptions) (i : Nat)
    (hidx : opts.shardIndex = some i) (hrange : opts.shardCount ≤ i) :
    orchestrate g run names opts = orchestrate g run names { opts with sharding := false } := by
  simp only [orchestrate, orchestrateBody]
  cases hres : resolveDependencies g names with
  | error e => rfl
  | ok ordered =>
      dsimp only
      rw [applySharding_out_of_range opts i _ hidx hrange, applySharding_disabled]
      rfl

/-- Witness for the amended C9: 2 shards, shard index 5. -/
theorem orchestrate_shard_out_of_range_ignored_witness :
    orchestrate regThree runPass ["S"] { sharding := true, shardCount := 2, shardIndex := some 5 } =
      orchestrate regThree runPass ["S"]
        { sharding := false, shardCount := 2, shardIndex := some 5 } :=
  orchestrate_shard_out_of_range_ignored regThree runPass ["S"]
    { sharding := true, shardCount := 2, shardIndex := some 5 } 5 rfl (by decide)
